import Mathlib

/-!
Verification of the sBayes MCMC sampling core (`sbayes/sampling/sbayes_sampling.py`,
`sbayes/experiment_setup.py`) against its natural-language specification.

Modelling conventions:
* a boolean site-membership vector of length `n` is a `Finset (Fin n)`;
* the adjacency matrix is `adj : Fin n → Fin n → Bool`;
* the stochastic choices of the Python code (`random.sample`, `random.choice`,
  `np.random.choice`, `np.random.random`) are passed in explicitly: an oracle
  `ℕ → ℕ` indexes into the (sorted) candidate list, a `Finset` stands for a drawn
  random subset, and a function `Fin n → ℚ` stands for a vector of uniform draws;
* real arithmetic is carried out over `ℚ`; where the Python code works with the
  logarithm of a proposal probability we carry the probability itself (the
  product instead of the sum of logs), which preserves every zero-test and
  every comparison the code performs;
* a Python function that can raise returns `Option`/`Except` here.
-/

namespace SBayes

/-- The list of sites of a finite site set, in the canonical site order. -/
def siteList {n : ℕ} (s : Finset (Fin n)) : List (Fin n) :=
  (List.finRange n).filter (fun i => decide (i ∈ s))

theorem mem_siteList {n : ℕ} (s : Finset (Fin n)) (i : Fin n) :
    i ∈ siteList s ↔ i ∈ s := by
  simp [siteList]

theorem siteList_length_pos {n : ℕ} (s : Finset (Fin n)) (h : s.Nonempty) :
    0 < (siteList s).length := by
  obtain ⟨x, hx⟩ := h
  have : x ∈ siteList s := (mem_siteList s x).mpr hx
  exact List.length_pos.mpr (List.ne_nil_of_mem this)

/-- Pick an element of a nonempty finite set of sites, the choice being driven by a
random index `r` (the set is listed in canonical order and indexed modulo its size).
This models a uniformly random draw from the set. -/
def pickSite {n : ℕ} (s : Finset (Fin n)) (r : ℕ) (h : s.Nonempty) : Fin n :=
  (siteList s).get ⟨r % (siteList s).length, Nat.mod_lt _ (siteList_length_pos s h)⟩

theorem pickSite_mem {n : ℕ} (s : Finset (Fin n)) (r : ℕ) (h : s.Nonempty) :
    pickSite s r h ∈ s := by
  have hmem : pickSite s r h ∈ siteList s := by
    rw [pickSite]
    exact List.get_mem _ _ _
  exact (mem_siteList s _).mp hmem

/-- Modelled from the spec: `get_neighbours` lives in `sbayes.util`, which is not part
of the sources; the spec describes growth as "repeatedly adding a uniformly random
adjacent (graph-neighbor) unoccupied site", so the neighbour set of a cluster is the
set of sites that are adjacent to some cluster site and not yet occupied. -/
def get_neighbours {n : ℕ} (adj : Fin n → Fin n → Bool) (cluster occupied : Finset (Fin n)) :
    Finset (Fin n) :=
  Finset.univ.filter (fun j => j ∉ occupied ∧ ∃ i ∈ cluster, adj i j = true)

/-- The growth loop of `ClusterMCMC.grow_cluster_of_size_k` (`for _ in range(k-1)`):
at each step compute the unoccupied neighbours of the current cluster; if there is
none, raise `ClusterError` (here: `none`); otherwise add a randomly chosen neighbour
to both the cluster and the occupied set.  `t` numbers the random draws. -/
def grow_loop {n : ℕ} (adj : Fin n → Fin n → Bool) :
    ℕ → Finset (Fin n) → Finset (Fin n) → (ℕ → ℕ) → ℕ →
    Option (Finset (Fin n) × Finset (Fin n))
  | 0, cluster, occupied, _, _ => some (cluster, occupied)
  | steps + 1, cluster, occupied, oracle, t =>
    let nbrs := get_neighbours adj cluster occupied
    if h : nbrs = ∅ then none
    else
      let site_new := pickSite nbrs (oracle t) (Finset.nonempty_iff_ne_empty.mpr h)
      grow_loop adj steps (insert site_new cluster) (insert site_new occupied) oracle (t + 1)

/-- `ClusterMCMC.grow_cluster_of_size_k`: seed a new cluster at a uniformly random
free site (raising `ClusterError`, i.e. `none`, if no site is free), then grow it by
`k - 1` neighbour-addition steps.  Returns the cluster and the updated occupied set. -/
def grow_cluster_of_size_k {n : ℕ} (adj : Fin n → Fin n → Bool) (k : ℕ)
    (already_in_cluster : Finset (Fin n)) (oracle : ℕ → ℕ) :
    Option (Finset (Fin n) × Finset (Fin n)) :=
  let sites_free := Finset.univ \ already_in_cluster
  if h : sites_free = ∅ then none
  else
    let i := pickSite sites_free (oracle 0) (Finset.nonempty_iff_ne_empty.mpr h)
    grow_loop adj (k - 1) {i} (insert i already_in_cluster) oracle 1

/-- A cluster grown by the algorithm: a seed site, followed by sites each adjacent to
a previously added cluster site.  This is the connectivity notion named by the spec. -/
inductive Grown {n : ℕ} (adj : Fin n → Fin n → Bool) : Finset (Fin n) → Prop where
  | seed (s : Fin n) : Grown adj {s}
  | step {c : Finset (Fin n)} {i j : Fin n} (hc : Grown adj c) (hi : i ∈ c) (hj : j ∉ c)
      (hadj : adj i j = true) : Grown adj (insert j c)

theorem mem_get_neighbours {n : ℕ} (adj : Fin n → Fin n → Bool)
    (cluster occupied : Finset (Fin n)) (j : Fin n) :
    j ∈ get_neighbours adj cluster occupied ↔
      j ∉ occupied ∧ ∃ i ∈ cluster, adj i j = true := by
  simp [get_neighbours]

/-- Invariant of the growth loop: starting from a cluster contained in the occupied
set, every successful run adds exactly `steps` sites, keeps the initial cluster,
returns the occupied set as the union of the initial one with the final cluster,
only ever adds unoccupied sites, and preserves the `Grown` connectivity shape. -/
theorem grow_loop_spec {n : ℕ} (adj : Fin n → Fin n → Bool) :
    ∀ (steps : ℕ) (c a : Finset (Fin n)) (o : ℕ → ℕ) (t : ℕ)
      (p : Finset (Fin n) × Finset (Fin n)),
      grow_loop adj steps c a o t = some p → c ⊆ a →
      p.1.card = c.card + steps ∧ c ⊆ p.1 ∧ p.2 = a ∪ p.1 ∧
        (∀ x ∈ p.1, x ∈ c ∨ x ∉ a) ∧ (Grown adj c → Grown adj p.1) := by
  intro steps
  induction steps with
  | zero =>
    intro c a o t p hp hca
    simp only [grow_loop, Option.some.injEq] at hp
    subst hp
    refine ⟨by simp, le_refl _, ?_, fun x hx => Or.inl hx, fun hg => hg⟩
    exact (Finset.union_eq_left.mpr hca).symm
  | succ steps ih =>
    intro c a o t p hp hca
    simp only [grow_loop] at hp
    split at hp
    · exact absurd hp (by simp)
    · rename_i hne
      set s := pickSite (get_neighbours adj c a) (o t) (Finset.nonempty_iff_ne_empty.mpr hne)
        with hs
      have hsmem : s ∈ get_neighbours adj c a := pickSite_mem _ _ _
      rw [mem_get_neighbours] at hsmem
      obtain ⟨hsa, i, hic, hadj⟩ := hsmem
      have hsc : s ∉ c := fun hsc => hsa (hca hsc)
      have hsub : insert s c ⊆ insert s a := Finset.insert_subset_insert s hca
      obtain ⟨hcard, hmono, hunion, hfresh, hgrown⟩ := ih (insert s c) (insert s a) o (t + 1) p hp hsub
      have hsp : s ∈ p.1 := hmono (Finset.mem_insert_self s c)
      refine ⟨?_, ?_, ?_, ?_, ?_⟩
      · rw [hcard, Finset.card_insert_of_not_mem hsc]
        omega
      · exact fun x hx => hmono (Finset.mem_insert_of_mem hx)
      · rw [hunion, Finset.insert_union, Finset.insert_eq_self.mpr]
        exact Finset.mem_union_right a hsp
      · intro x hx
        rcases hfresh x hx with hx1 | hx2
        · rcases Finset.mem_insert.mp hx1 with hx1 | hx1
          · subst hx1
            exact Or.inr hsa
          · exact Or.inl hx1
        · exact Or.inr (fun hxa => hx2 (Finset.mem_insert_of_mem hxa))
      · exact fun hg => hgrown (Grown.step hg hic hsc hadj)

/-- C1: whenever `grow_cluster_of_size_k(k, already_in_cluster)` (with `k ≥ 1`)
returns without raising, the returned membership vector contains exactly `k` sites
and those sites are connected under the adjacency graph: a seed plus `k - 1` sites
each adjacent to a previously added cluster site. -/
theorem grow_cluster_size_and_connected {n : ℕ} (adj : Fin n → Fin n → Bool) (k : ℕ)
    (already : Finset (Fin n)) (oracle : ℕ → ℕ) (cl inCl : Finset (Fin n))
    (hk : 1 ≤ k)
    (h : grow_cluster_of_size_k adj k already oracle = some (cl, inCl)) :
    cl.card = k ∧ Grown adj cl := by
  rw [grow_cluster_of_size_k] at h
  split at h
  · exact absurd h (by simp)
  · rename_i hne
    set i := pickSite (Finset.univ \ already) (oracle 0) (Finset.nonempty_iff_ne_empty.mpr hne)
      with hi
    have hsub : ({i} : Finset (Fin n)) ⊆ insert i already := by
      simp
    obtain ⟨hcard, _, _, _, hgrown⟩ :=
      grow_loop_spec adj (k - 1) {i} (insert i already) oracle 1 (cl, inCl) h hsub
    constructor
    · simp only [Finset.card_singleton] at hcard
      omega
    · exact hgrown (Grown.seed i)

/-- A 5-site path graph 0-1-2-3-4, used as a concrete test network. -/
def adjPath5 : Fin 5 → Fin 5 → Bool :=
  fun i j => (i.val + 1 == j.val) || (j.val + 1 == i.val)

theorem grow_loop_succ {n : ℕ} (adj : Fin n → Fin n → Bool) (steps : ℕ)
    (c a : Finset (Fin n)) (o : ℕ → ℕ) (t : ℕ)
    (hne : get_neighbours adj c a ≠ ∅) :
    grow_loop adj (steps + 1) c a o t =
      grow_loop adj steps
        (insert (pickSite (get_neighbours adj c a) (o t) (Finset.nonempty_iff_ne_empty.mpr hne)) c)
        (insert (pickSite (get_neighbours adj c a) (o t) (Finset.nonempty_iff_ne_empty.mpr hne)) a)
        o (t + 1) := by
  simp only [grow_loop]
  rw [dif_neg hne]

/-- The growth loop fails (raises `ClusterError`) exactly when, after some number of
successful growth steps, the current cluster has no unoccupied neighbour. -/
theorem grow_loop_none_iff {n : ℕ} (adj : Fin n → Fin n → Bool) :
    ∀ (steps : ℕ) (c a : Finset (Fin n)) (o : ℕ → ℕ) (t : ℕ),
      grow_loop adj steps c a o t = none ↔
        ∃ m, m < steps ∧ ∃ p, grow_loop adj m c a o t = some p ∧
          get_neighbours adj p.1 p.2 = ∅ := by
  intro steps
  induction steps with
  | zero =>
    intro c a o t
    simp [grow_loop]
  | succ steps ih =>
    intro c a o t
    by_cases hne : get_neighbours adj c a = ∅
    · constructor
      · intro _
        exact ⟨0, Nat.succ_pos _, (c, a), by simp [grow_loop], hne⟩
      · intro _
        simp [grow_loop, hne]
    · rw [grow_loop_succ adj steps c a o t hne, ih]
      constructor
      · rintro ⟨m, hm, p, hp, hq⟩
        refine ⟨m + 1, by omega, p, ?_, hq⟩
        rw [grow_loop_succ adj m c a o t hne]
        exact hp
      · rintro ⟨m, hm, p, hp, hq⟩
        match m with
        | 0 =>
          simp only [grow_loop, Option.some.injEq] at hp
          rw [← hp] at hq
          exact absurd hq hne
        | m + 1 =>
          rw [grow_loop_succ adj m c a o t hne] at hp
          exact ⟨m, by omega, p, hp, hq⟩

/-- The maximum number of restarts (`max_attempts`) the cluster initialization
performs before giving up (`ClusterMCMC.generate_initial_clusters`). -/
def max_attempts : ℕ := 1000

/-- The fatal error raised by `generate_initial_clusters` once the retry cap is
exhausted. -/
def initClustersError : String :=
  "Failed to add additional cluster. Try fewer clusters or set initial_sample to None."

/-- Outcome of one pass of the `for i in not_initialized` loop of
`ClusterMCMC.generate_initial_clusters`: either every remaining cluster was grown
(`done`), or a growth attempt raised `ClusterError` (`failed`), carrying the
clusters accumulated so far, their occupied sites, the index of the failed call
and the number of clusters still to grow. -/
inductive PassResult (n : ℕ) where
  | done (clusters : List (Finset (Fin n)))
  | failed (acc : List (Finset (Fin n))) (occ : Finset (Fin n)) (ci : ℕ) (todo : ℕ)

/-- One pass of the `for i in not_initialized` loop: grow the `todo` remaining
clusters one after the other (the growth attempt is abstracted as `grow`, called
with a fresh call index `ci` each time, modelling fresh randomness), stopping at
the first `ClusterError`. -/
def gen_pass {n : ℕ}
    (grow : ℕ → Finset (Fin n) → Option (Finset (Fin n) × Finset (Fin n))) :
    ℕ → ℕ → List (Finset (Fin n)) → Finset (Fin n) → PassResult n
  | 0, _, acc, _ => .done acc
  | todo + 1, ci, acc, occ =>
    match grow ci occ with
    | some (cl, inCl) => gen_pass grow todo (ci + 1) (acc ++ [cl]) inCl
    | none => .failed acc occ ci (todo + 1)

/-- The `while True` retry loop of `ClusterMCMC.generate_initial_clusters`:
re-run the pass after a failure as long as retries are left
(`attemptsLeft = max_attempts - attempts`), and raise the fatal error once the
cap is exhausted. -/
def gen_retry {n : ℕ}
    (grow : ℕ → Finset (Fin n) → Option (Finset (Fin n) × Finset (Fin n))) :
    ℕ → PassResult n → Except String (List (Finset (Fin n)))
  | _, .done clusters => .ok clusters
  | 0, .failed _ _ _ _ => .error initClustersError
  | aLeft + 1, .failed acc occ ci todo => gen_retry grow aLeft (gen_pass grow todo (ci + 1) acc occ)

/-- `ClusterMCMC.generate_initial_clusters`: with no clusters requested return the
empty matrix; otherwise copy the clusters of a previous run's sample (when given)
and grow the remaining ones by repeated `grow_cluster_of_size_k` calls, restarting
on `ClusterError` at most `max_attempts` times before raising a fatal error. -/
def generate_initial_clusters {n : ℕ} (adj : Fin n → Fin n → Bool)
    (n_clusters initial_size : ℕ) (prev : Option (List (Finset (Fin n))))
    (oracles : ℕ → ℕ → ℕ) : Except String (List (Finset (Fin n))) :=
  if n_clusters = 0 then .ok []
  else
    let grow := fun ci occ => grow_cluster_of_size_k adj initial_size occ (oracles ci)
    let prev_clusters := prev.getD []
    let occupied := prev_clusters.foldr (· ∪ ·) ∅
    gen_retry grow max_attempts
      (gen_pass grow (n_clusters - prev_clusters.length) 0 prev_clusters occupied)

/-- The exact failure condition of `grow_cluster_of_size_k`: either no unoccupied
seed site is available, or after some number `m` of successful growth steps the
current cluster has no unoccupied graph-neighbour. -/
def growth_failure_condition {n : ℕ} (adj : Fin n → Fin n → Bool) (k : ℕ)
    (already : Finset (Fin n)) (o : ℕ → ℕ) : Prop :=
  Finset.univ \ already = ∅ ∨
    ∃ hfree : (Finset.univ \ already) ≠ ∅, ∃ m, m < k - 1 ∧ ∃ p,
      grow_loop adj m
        {pickSite (Finset.univ \ already) (o 0) (Finset.nonempty_iff_ne_empty.mpr hfree)}
        (insert (pickSite (Finset.univ \ already) (o 0)
          (Finset.nonempty_iff_ne_empty.mpr hfree)) already) o 1 = some p ∧
      get_neighbours adj p.1 p.2 = ∅

/-- C2: `grow_cluster_of_size_k` raises `ClusterError` exactly when no unoccupied
seed site is available, or when at some growth step the current cluster has no
unoccupied graph-neighbour; and once the retry cap of `generate_initial_clusters`
(1000 = `max_attempts` restarts) is exhausted — as happens whenever every growth
attempt fails — a fatal error is surfaced to the caller instead of looping forever
(the loop is structurally bounded by `attemptsLeft`). -/
theorem cluster_error_and_bounded_retry {n : ℕ} (adj : Fin n → Fin n → Bool)
    (k : ℕ) (already : Finset (Fin n)) (o : ℕ → ℕ)
    (n_clusters initial_size : ℕ) (oracles : ℕ → ℕ → ℕ)
    (hfail : ∀ ci occ, grow_cluster_of_size_k adj initial_size occ (oracles ci) = none)
    (hnc : 1 ≤ n_clusters) :
    (grow_cluster_of_size_k adj k already o = none ↔
      growth_failure_condition adj k already o) ∧
    generate_initial_clusters adj n_clusters initial_size none oracles =
      .error initClustersError := by
  rw [growth_failure_condition]
  constructor
  · rw [grow_cluster_of_size_k]
    split
    · rename_i hempty
      simp [hempty]
    · rename_i hfree
      rw [grow_loop_none_iff]
      constructor
      · rintro ⟨m, hm, p, hp, hq⟩
        exact Or.inr ⟨hfree, m, hm, p, hp, hq⟩
      · rintro (habs | ⟨hfree2, m, hm, p, hp, hq⟩)
        · exact absurd habs hfree
        · exact ⟨m, hm, p, hp, hq⟩
  · have hpass : ∀ (todo ci : ℕ) (acc : List (Finset (Fin n))) (occ : Finset (Fin n)),
        1 ≤ todo →
        gen_pass (fun ci occ => grow_cluster_of_size_k adj initial_size occ (oracles ci))
          todo ci acc occ = .failed acc occ ci todo := by
      intro todo ci acc occ htodo
      match todo with
      | todo + 1 =>
        rw [gen_pass, hfail ci occ]
    have hloop : ∀ (aLeft : ℕ) (todo ci : ℕ) (acc : List (Finset (Fin n)))
        (occ : Finset (Fin n)), 1 ≤ todo →
        gen_retry (fun ci occ => grow_cluster_of_size_k adj initial_size occ (oracles ci))
          aLeft (.failed acc occ ci todo) = .error initClustersError := by
      intro aLeft
      induction aLeft with
      | zero =>
        intro todo ci acc occ htodo
        rfl
      | succ aLeft ih =>
        intro todo ci acc occ htodo
        rw [gen_retry, hpass todo (ci + 1) acc occ htodo]
        exact ih todo (ci + 1) acc occ htodo
    rw [generate_initial_clusters, if_neg (by omega)]
    simp only [Option.getD_none, List.length_nil, Nat.sub_zero, List.foldr_nil]
    rw [hpass n_clusters 0 [] ∅ hnc]
    exact hloop max_attempts n_clusters 0 [] ∅ hnc

/-- A successful `grow_cluster_of_size_k` run returns a cluster disjoint from the
excluded sites, and an occupied set equal to the union of the excluded sites with
the new cluster. -/
theorem grow_cluster_fresh {n : ℕ} (adj : Fin n → Fin n → Bool) (k : ℕ)
    (already : Finset (Fin n)) (o : ℕ → ℕ) (cl inCl : Finset (Fin n))
    (h : grow_cluster_of_size_k adj k already o = some (cl, inCl)) :
    Disjoint cl already ∧ inCl = already ∪ cl := by
  rw [grow_cluster_of_size_k] at h
  split at h
  · exact absurd h (by simp)
  · rename_i hne
    set i := pickSite (Finset.univ \ already) (o 0) (Finset.nonempty_iff_ne_empty.mpr hne)
      with hidef
    have hia : i ∉ already := by
      have := pickSite_mem (Finset.univ \ already) (o 0) (Finset.nonempty_iff_ne_empty.mpr hne)
      rw [← hidef] at this
      exact (Finset.mem_sdiff.mp this).2
    have hsub : ({i} : Finset (Fin n)) ⊆ insert i already := by simp
    obtain ⟨_, hmono, hunion, hfresh, _⟩ :=
      grow_loop_spec adj (k - 1) {i} (insert i already) o 1 (cl, inCl) h hsub
    dsimp only at hmono hunion hfresh
    have hicl : i ∈ cl := hmono (Finset.mem_singleton_self i)
    constructor
    · rw [Finset.disjoint_left]
      intro x hx hxa
      rcases hfresh x hx with hx1 | hx2
      · rw [Finset.mem_singleton] at hx1
        subst hx1
        exact hia hxa
      · exact hx2 (Finset.mem_insert_of_mem hxa)
    · rw [hunion, Finset.insert_union, Finset.insert_eq_self.mpr]
      exact Finset.mem_union_right already hicl

/-- Invariant of one initialization pass: if every successful growth attempt
returns a cluster disjoint from the occupied set and marks it as occupied, then a
pass started from pairwise-disjoint clusters covered by the occupied set yields
pairwise-disjoint clusters, and on failure hands back a state satisfying the same
invariant. -/
theorem gen_pass_disjoint_spec {n : ℕ}
    (grow : ℕ → Finset (Fin n) → Option (Finset (Fin n) × Finset (Fin n)))
    (hgrow : ∀ ci occ cl inCl, grow ci occ = some (cl, inCl) →
      Disjoint cl occ ∧ inCl = occ ∪ cl) :
    ∀ (todo ci : ℕ) (acc : List (Finset (Fin n))) (occ : Finset (Fin n)),
      (∀ c ∈ acc, c ⊆ occ) → acc.Pairwise (fun c d => Disjoint c d) →
      (∀ l, gen_pass grow todo ci acc occ = .done l →
        l.Pairwise (fun c d => Disjoint c d)) ∧
      (∀ acc2 occ2 ci2 todo2, gen_pass grow todo ci acc occ = .failed acc2 occ2 ci2 todo2 →
        (∀ c ∈ acc2, c ⊆ occ2) ∧ acc2.Pairwise (fun c d => Disjoint c d)) := by
  intro todo
  induction todo with
  | zero =>
    intro ci acc occ hsub hpw
    constructor
    · intro l hl
      rw [gen_pass] at hl
      cases hl
      exact hpw
    · intro acc2 occ2 ci2 todo2 hl
      rw [gen_pass] at hl
      cases hl
  | succ todo ih =>
    intro ci acc occ hsub hpw
    cases hg : grow ci occ with
    | none =>
      constructor
      · intro l hl
        rw [gen_pass, hg] at hl
        cases hl
      · intro acc2 occ2 ci2 todo2 hl
        rw [gen_pass, hg] at hl
        cases hl
        exact ⟨hsub, hpw⟩
    | some p =>
      obtain ⟨cl, inCl⟩ := p
      obtain ⟨hdisj, hin⟩ := hgrow ci occ cl inCl hg
      have hsub2 : ∀ c ∈ acc ++ [cl], c ⊆ inCl := by
        intro c hc
        rcases List.mem_append.mp hc with hc | hc
        · exact (hsub c hc).trans (by rw [hin]; exact Finset.subset_union_left)
        · rw [List.mem_singleton] at hc
          subst hc
          rw [hin]
          exact Finset.subset_union_right
      have hpw2 : (acc ++ [cl]).Pairwise (fun c d => Disjoint c d) := by
        rw [List.pairwise_append]
        refine ⟨hpw, List.pairwise_singleton _ _, ?_⟩
        intro c hc d hd
        rw [List.mem_singleton] at hd
        subst hd
        exact (Finset.disjoint_of_subset_right (hsub c hc) hdisj).symm
      obtain ⟨hdone, hfailed⟩ := ih (ci + 1) (acc ++ [cl]) inCl hsub2 hpw2
      constructor
      · intro l hl
        rw [gen_pass, hg] at hl
        exact hdone l hl
      · intro acc2 occ2 ci2 todo2 hl
        rw [gen_pass, hg] at hl
        exact hfailed acc2 occ2 ci2 todo2 hl

/-- Invariant of the retry loop: a retry loop started from a pass result whose
state satisfies the disjointness invariant only ever returns pairwise-disjoint
cluster lists. -/
theorem gen_retry_disjoint_spec {n : ℕ}
    (grow : ℕ → Finset (Fin n) → Option (Finset (Fin n) × Finset (Fin n)))
    (hgrow : ∀ ci occ cl inCl, grow ci occ = some (cl, inCl) →
      Disjoint cl occ ∧ inCl = occ ∪ cl) :
    ∀ (aLeft : ℕ) (pr : PassResult n) (l : List (Finset (Fin n))),
      (∀ l0, pr = .done l0 → l0.Pairwise (fun c d => Disjoint c d)) →
      (∀ acc occ ci todo, pr = .failed acc occ ci todo →
        (∀ c ∈ acc, c ⊆ occ) ∧ acc.Pairwise (fun c d => Disjoint c d)) →
      gen_retry grow aLeft pr = .ok l → l.Pairwise (fun c d => Disjoint c d) := by
  intro aLeft
  induction aLeft with
  | zero =>
    intro pr l hdone hfailed hok
    cases pr with
    | done l0 =>
      rw [gen_retry] at hok
      cases hok
      exact hdone l rfl
    | failed acc occ ci todo =>
      rw [gen_retry] at hok
      cases hok
  | succ aLeft ih =>
    intro pr l hdone hfailed hok
    cases pr with
    | done l0 =>
      rw [gen_retry] at hok
      cases hok
      exact hdone l rfl
    | failed acc occ ci todo =>
      rw [gen_retry] at hok
      obtain ⟨hsub, hpw⟩ := hfailed acc occ ci todo rfl
      obtain ⟨hd2, hf2⟩ := gen_pass_disjoint_spec grow hgrow todo (ci + 1) acc occ hsub hpw
      exact ih (gen_pass grow todo (ci + 1) acc occ) l hd2 hf2 hok

/-- C10: the cluster returned by `grow_cluster_of_size_k` is disjoint from the
excluded set `already_in_cluster`, the second returned vector is the union of the
excluded set and the new cluster, and consequently the clusters produced from
scratch by `generate_initial_clusters` are pairwise disjoint. -/
theorem grow_cluster_exclusion_and_initial_disjoint {n : ℕ}
    (adj : Fin n → Fin n → Bool) (k : ℕ) (already : Finset (Fin n)) (o : ℕ → ℕ)
    (cl inCl : Finset (Fin n)) (n_clusters initial_size : ℕ) (oracles : ℕ → ℕ → ℕ)
    (l : List (Finset (Fin n)))
    (h : grow_cluster_of_size_k adj k already o = some (cl, inCl))
    (hl : generate_initial_clusters adj n_clusters initial_size none oracles = .ok l) :
    (Disjoint cl already ∧ inCl = already ∪ cl) ∧
      l.Pairwise (fun c d => Disjoint c d) := by
  refine ⟨grow_cluster_fresh adj k already o cl inCl h, ?_⟩
  rw [generate_initial_clusters] at hl
  split at hl
  · simp only [Except.ok.injEq] at hl
    subst hl
    exact List.Pairwise.nil
  · have hgrow : ∀ ci occ cl2 inCl2,
        grow_cluster_of_size_k adj initial_size occ (oracles ci) = some (cl2, inCl2) →
        Disjoint cl2 occ ∧ inCl2 = occ ∪ cl2 :=
      fun ci occ cl2 inCl2 hg => grow_cluster_fresh adj initial_size occ (oracles ci) cl2 inCl2 hg
    simp only [Option.getD_none, List.length_nil, Nat.sub_zero, List.foldr_nil] at hl
    obtain ⟨hd0, hf0⟩ := gen_pass_disjoint_spec _ hgrow n_clusters 0 [] ∅
      (by simp) List.Pairwise.nil
    exact gen_retry_disjoint_spec _ hgrow max_attempts _ l hd0 hf0 hl

/-- Modelled from the spec: `normalize` from `sbayes.util` (not under src/), applied
along the last axis: each feature's weight row is divided by its sum. -/
def normalize {F S : ℕ} (w : Fin F → Fin S → ℚ) : Fin F → Fin S → ℚ :=
  fun f s => w f s / ∑ t, w f t

/-- `ClusterMCMC.generate_initial_weights`: use the weights of a previous run's
sample when given, else a constant matrix of ones; in both cases the result is
passed through `normalize`. -/
def generate_initial_weights (F S : ℕ) (prev : Option (Fin F → Fin S → ℚ)) :
    Fin F → Fin S → ℚ :=
  match prev with
  | some w => normalize w
  | none => normalize (fun _ _ => 1)

/-- The static feature data handed to the sampler: a (site × feature × state)
observation tensor (`none` models NaN for missing observations) and the
applicable-states mask. -/
structure FeatureData (n F K : ℕ) where
  features : Fin n → Fin F → Fin K → Option ℚ
  applicable_states : Fin F → Fin K → Bool

/-- The `sites_per_state` tensor of the effect initializers after NaN handling and
smoothing: the nansum of the observations over the group's sites, plus 1 on every
applicable state of each feature. -/
def smoothed_counts {n F K : ℕ} (d : FeatureData n F K) (g : Finset (Fin n))
    (f : Fin F) (k : Fin K) : ℚ :=
  (∑ i ∈ g, ((d.features i f k).getD 0)) + (if d.applicable_states f k then 1 else 0)

/-- The per-group initial effect computed from scratch by both
`generate_initial_cluster_effect` and `generate_initial_confounding_effect`:
smoothed state counts divided by their per-feature sum. -/
def initial_group_effect {n F K : ℕ} (d : FeatureData n F K) (g : Finset (Fin n)) :
    Fin F → Fin K → ℚ :=
  fun f k => smoothed_counts d g f k / ∑ k2, smoothed_counts d g f k2

/-- `ClusterMCMC.generate_initial_cluster_effect`: copy the rows of a previous
run's sample when given, and compute the remaining rows from the assigned sites of
the corresponding initial cluster. -/
def generate_initial_cluster_effect {n F K : ℕ} (d : FeatureData n F K)
    (n_clusters : ℕ) (prev : Option (List (Fin F → Fin K → ℚ)))
    (initial_clusters : List (Finset (Fin n))) : List (Fin F → Fin K → ℚ) :=
  let prev_rows := prev.getD []
  prev_rows ++ ((List.range n_clusters).drop prev_rows.length).map
    (fun i => initial_group_effect d (initial_clusters.getD i ∅))

/-- `ClusterMCMC.generate_initial_confounding_effect`: copy the rows of a previous
run's sample when given (remaining rows stay at their zero initialization), else
compute every group's row from the group's sites. -/
def generate_initial_confounding_effect {n F K : ℕ} (d : FeatureData n F K)
    (groups : List (Finset (Fin n))) (prev : Option (List (Fin F → Fin K → ℚ))) :
    List (Fin F → Fin K → ℚ) :=
  match prev with
  | some prev_rows =>
    prev_rows ++ List.replicate (groups.length - prev_rows.length)
      ((fun _ _ => 0) : Fin F → Fin K → ℚ)
  | none => groups.map (fun g => initial_group_effect d g)

/-- C7: initializing a chain from a previous run's final sample with matching
numbers of clusters, confounder groups and features reproduces the previous
clusters, weights, cluster effect and confounding effects exactly (the weights
hypothesis is the `Sample` invariant that each feature's weight row sums to 1, so
the `normalize` call of `generate_initial_weights` is the identity on them). -/
theorem resume_reproduces_previous_sample {n F S K : ℕ} (adj : Fin n → Fin n → Bool)
    (n_clusters initial_size : ℕ) (oracles : ℕ → ℕ → ℕ) (d : FeatureData n F K)
    (pc : List (Finset (Fin n))) (pw : Fin F → Fin S → ℚ)
    (pe : List (Fin F → Fin K → ℚ)) (groups : List (Finset (Fin n)))
    (pcf : List (Fin F → Fin K → ℚ))
    (hpc : pc.length = n_clusters)
    (hw : ∀ f, (∑ t, pw f t) = 1)
    (hpe : pe.length = n_clusters)
    (hpcf : pcf.length = groups.length) :
    generate_initial_clusters adj n_clusters initial_size (some pc) oracles = .ok pc ∧
    generate_initial_weights F S (some pw) = pw ∧
    generate_initial_cluster_effect d n_clusters (some pe) pc = pe ∧
    generate_initial_confounding_effect d groups (some pcf) = pcf := by
  refine ⟨?_, ?_, ?_, ?_⟩
  · rw [generate_initial_clusters]
    split
    · rename_i hzero
      have : pc = [] := List.length_eq_zero.mp (by omega)
      rw [this]
    · simp only [Option.getD_some, hpc, Nat.sub_self]
      rw [gen_pass, gen_retry]
  · funext f t
    rw [generate_initial_weights, normalize, hw f, div_one]
  · rw [generate_initial_cluster_effect]
    simp only [Option.getD_some, hpe]
    rw [List.drop_eq_nil_of_le (by rw [List.length_range])]
    simp
  · simp only [generate_initial_confounding_effect]
    rw [← hpcf, Nat.sub_self]
    simp

/-- Positivity of the smoothed state counts, given non-negative observations. -/
theorem smoothed_counts_nonneg {n F K : ℕ} (d : FeatureData n F K)
    (g : Finset (Fin n)) (f : Fin F) (k : Fin K)
    (hnn : ∀ i f k q, d.features i f k = some q → 0 ≤ q) :
    0 ≤ smoothed_counts d g f k := by
  rw [smoothed_counts]
  have h1 : (0 : ℚ) ≤ ∑ i ∈ g, ((d.features i f k).getD 0) := by
    refine Finset.sum_nonneg ?_
    intro i _
    cases hfi : d.features i f k with
    | none => simp
    | some q => simpa using hnn i f k q hfi
  have h2 : (0 : ℚ) ≤ (if d.applicable_states f k then 1 else 0) := by positivity
  linarith

/-- The smoothed count of an applicable state is at least 1. -/
theorem smoothed_counts_ge_one {n F K : ℕ} (d : FeatureData n F K)
    (g : Finset (Fin n)) (f : Fin F) (k : Fin K)
    (hnn : ∀ i f k q, d.features i f k = some q → 0 ≤ q)
    (hk : d.applicable_states f k = true) :
    1 ≤ smoothed_counts d g f k := by
  rw [smoothed_counts, hk]
  have h1 : (0 : ℚ) ≤ ∑ i ∈ g, ((d.features i f k).getD 0) := by
    refine Finset.sum_nonneg ?_
    intro i _
    cases hfi : d.features i f k with
    | none => simp
    | some q => simpa using hnn i f k q hfi
  simp only [if_true]
  linarith

/-- Core property of the smoothed-MLE initializer: each feature row sums to 1, is
strictly positive on applicable states, and (when at least two states are
applicable) never puts probability 1 on an applicable state. -/
theorem initial_group_effect_spec {n F K : ℕ} (d : FeatureData n F K)
    (g : Finset (Fin n))
    (hnn : ∀ i f k q, d.features i f k = some q → 0 ≤ q)
    (happ : ∀ f, ∃ k, d.applicable_states f k = true) :
    ∀ f, (∑ k, initial_group_effect d g f k) = 1 ∧
      (∀ k, d.applicable_states f k = true → 0 < initial_group_effect d g f k) ∧
      (2 ≤ (Finset.univ.filter (fun k => d.applicable_states f k = true)).card →
        ∀ k, d.applicable_states f k = true → initial_group_effect d g f k < 1) := by
  intro f
  obtain ⟨k0, hk0⟩ := happ f
  have hS : (0 : ℚ) < ∑ k2, smoothed_counts d g f k2 := by
    have hle : (1 : ℚ) ≤ ∑ k2, smoothed_counts d g f k2 := by
      calc (1 : ℚ) ≤ smoothed_counts d g f k0 := smoothed_counts_ge_one d g f k0 hnn hk0
        _ ≤ ∑ k2, smoothed_counts d g f k2 :=
          Finset.single_le_sum (fun k2 _ => smoothed_counts_nonneg d g f k2 hnn)
            (Finset.mem_univ k0)
    linarith
  refine ⟨?_, ?_, ?_⟩
  · simp only [initial_group_effect]
    rw [← Finset.sum_div, div_self (ne_of_gt hS)]
  · intro k hk
    simp only [initial_group_effect]
    exact div_pos (lt_of_lt_of_le one_pos (smoothed_counts_ge_one d g f k hnn hk)) hS
  · intro hcard k hk
    simp only [initial_group_effect]
    rw [div_lt_one hS]
    obtain ⟨k1, hk1mem, hk1ne⟩ :
        ∃ k1 ∈ Finset.univ.filter (fun k2 => d.applicable_states f k2 = true), k1 ≠ k := by
      rcases Finset.one_lt_card.mp
          (show 1 < (Finset.univ.filter
            (fun k2 => d.applicable_states f k2 = true)).card by omega)
        with ⟨a, ha, b, hb, hab⟩
      by_cases hak : a = k
      · exact ⟨b, hb, by rw [← hak]; exact fun hbk => hab hbk.symm⟩
      · exact ⟨a, ha, hak⟩
    have hk1app : d.applicable_states f k1 = true := (Finset.mem_filter.mp hk1mem).2
    have hsplit : smoothed_counts d g f k + smoothed_counts d g f k1 ≤
        ∑ k2, smoothed_counts d g f k2 := by
      have : ∑ k2 ∈ ({k, k1} : Finset (Fin K)), smoothed_counts d g f k2 ≤
          ∑ k2, smoothed_counts d g f k2 := by
        refine Finset.sum_le_sum_of_subset_of_nonneg (Finset.subset_univ _) ?_
        intro k2 _ _
        exact smoothed_counts_nonneg d g f k2 hnn
      rwa [Finset.sum_pair (fun h => hk1ne h.symm)] at this
    have := smoothed_counts_ge_one d g f k1 hnn hk1app
    linarith

/-- C9: every cluster effect and every confounding-effect group initialized from
scratch adds 1 to the observation count of each applicable state (`smoothed_counts`)
before normalizing, so each feature row sums to 1, gives strictly positive
probability to every applicable state, and (for features with at least two
applicable states) never contains an all-or-nothing 0/1 entry on an applicable
state. -/
theorem initial_effects_laplace_smoothed {n F K : ℕ} (d : FeatureData n F K)
    (n_clusters : ℕ) (initial_clusters : List (Finset (Fin n)))
    (groups : List (Finset (Fin n)))
    (hnn : ∀ i f k q, d.features i f k = some q → 0 ≤ q)
    (happ : ∀ f, ∃ k, d.applicable_states f k = true) :
    ∀ e ∈ generate_initial_cluster_effect d n_clusters none initial_clusters ++
        generate_initial_confounding_effect d groups none,
      ∀ f, (∑ k, e f k) = 1 ∧
        (∀ k, d.applicable_states f k = true → 0 < e f k) ∧
        (2 ≤ (Finset.univ.filter (fun k => d.applicable_states f k = true)).card →
          ∀ k, d.applicable_states f k = true → e f k < 1) := by
  intro e he
  have hshape : ∃ g, e = initial_group_effect d g := by
    rcases List.mem_append.mp he with he | he
    · rw [generate_initial_cluster_effect] at he
      simp only [Option.getD_none, List.nil_append, List.mem_map] at he
      obtain ⟨i, _, hei⟩ := he
      exact ⟨initial_clusters.getD i ∅, hei.symm⟩
    · simp only [generate_initial_confounding_effect, List.mem_map] at he
      obtain ⟨g, _, heg⟩ := he
      exact ⟨g, heg.symm⟩
  obtain ⟨g, rfl⟩ := hshape
  exact initial_group_effect_spec d g hnn happ

/-- A 1-site network with no edges: every growth attempt of size 2 fails. -/
def adjEmpty1 : Fin 1 → Fin 1 → Bool := fun _ _ => false

/-- Witness for C1: growing a cluster of size 3 on the 5-site path graph. -/
theorem grow_cluster_size_and_connected_witness :
    (1 ≤ 3 ∧ grow_cluster_of_size_k adjPath5 3 ∅ (fun _ => 0) =
        some ({2, 1, 0}, {2, 1, 0})) ∧
    (({2, 1, 0} : Finset (Fin 5)).card = 3 ∧ Grown adjPath5 {2, 1, 0}) :=
  ⟨⟨by decide, by decide⟩,
    grow_cluster_size_and_connected adjPath5 3 ∅ (fun _ => 0) {2, 1, 0} {2, 1, 0}
      (by decide) (by decide)⟩

/-- On the edgeless 1-site network, every attempt to grow a cluster of size 2
fails, whatever the excluded set. -/
theorem adjEmpty1_grow_fails :
    ∀ occ : Finset (Fin 1), grow_cluster_of_size_k adjEmpty1 2 occ (fun _ => 0) = none := by
  decide

/-- Witness for C2: on an edgeless 1-site network every growth attempt of size 2
fails, and initialization of one cluster surfaces the fatal error. -/
theorem cluster_error_and_bounded_retry_witness :
    ((∀ (ci : ℕ) (occ : Finset (Fin 1)),
        grow_cluster_of_size_k adjEmpty1 2 occ ((fun _ _ => 0) ci) = none) ∧
      1 ≤ 1) ∧
    ((grow_cluster_of_size_k adjEmpty1 2 ∅ (fun _ => 0) = none ↔
        growth_failure_condition adjEmpty1 2 ∅ (fun _ => 0)) ∧
      generate_initial_clusters adjEmpty1 1 2 none (fun _ _ => 0) =
        .error initClustersError) :=
  ⟨⟨fun _ occ => adjEmpty1_grow_fails occ, by decide⟩,
    cluster_error_and_bounded_retry adjEmpty1 2 ∅ (fun _ => 0) 1 2 (fun _ _ => 0)
      (fun _ occ => adjEmpty1_grow_fails occ) (by decide)⟩

/-- Witness for C10: concrete growth and two-cluster initialization on the 5-site
path graph. -/
theorem grow_cluster_exclusion_and_initial_disjoint_witness :
    (grow_cluster_of_size_k adjPath5 3 ∅ (fun _ => 0) = some ({2, 1, 0}, {2, 1, 0}) ∧
      generate_initial_clusters adjPath5 2 2 none (fun _ _ => 0) = .ok [{1, 0}, {3, 2}]) ∧
    ((Disjoint ({2, 1, 0} : Finset (Fin 5)) ∅ ∧
        ({2, 1, 0} : Finset (Fin 5)) = ∅ ∪ {2, 1, 0}) ∧
      ([{1, 0}, {3, 2}] : List (Finset (Fin 5))).Pairwise (fun c d => Disjoint c d)) :=
  ⟨⟨by decide, rfl⟩,
    grow_cluster_exclusion_and_initial_disjoint adjPath5 3 ∅ (fun _ => 0)
      {2, 1, 0} {2, 1, 0} 2 2 (fun _ _ => 0) [{1, 0}, {3, 2}] (by decide) rfl⟩

/-- The operator weight table of the configuration (`OperatorsConfig` from
`sbayes.config.config`, reconstructed from its uses): one weight per operator
family. -/
structure OperatorsConfig where
  clusters : ℚ
  source : ℚ
  weights : ℚ
  cluster_effect : ℚ
  confounding_effects : ℚ

/-- `normalize_operator_weights`: divide every operator's weight by the total. -/
def normalize_operator_weights (ops : List (String × ℚ)) : List (String × ℚ) :=
  let total := (ops.map (fun op => op.2)).sum
  ops.map (fun op => (op.1, op.2 / total))

/-- The operator set built by `ClusterMCMC.get_operators` before normalization:
`sample_cluster` always; with source sampling the Gibbs operators for sources,
weights, cluster effect and one operator per confounder (weight
`1/len(confounders) * confounding_effects`); without source sampling the
`alter_*` operators instead (per-confounder weight `confounding_effects *
1/len(confounders)`). -/
def build_operators (sample_source : Bool) (cfg : OperatorsConfig)
    (confounders : List String) : List (String × ℚ) :=
  let r : ℚ := 1 / (confounders.length : ℚ)
  if sample_source then
    [("sample_cluster", cfg.clusters),
      ("gibbs_sample_sources", cfg.source),
      ("gibbs_sample_weights", cfg.weights),
      ("gibbs_sample_cluster_effect", cfg.cluster_effect)] ++
      confounders.map (fun k =>
        ("gibbs_sample_confounding_effects_" ++ k, r * cfg.confounding_effects))
  else
    [("sample_cluster", cfg.clusters),
      ("alter_weights", cfg.weights),
      ("alter_cluster_effect", cfg.cluster_effect)] ++
      confounders.map (fun k =>
        ("alter_confounding_effects_" ++ k, cfg.confounding_effects * r))

/-- `ClusterMCMC.get_operators`: build the configuration-dependent operator set and
normalize its weights. -/
def get_operators (sample_source : Bool) (cfg : OperatorsConfig)
    (confounders : List String) : List (String × ℚ) :=
  normalize_operator_weights (build_operators sample_source cfg confounders)

/-- The `sample_source`-dependent part of `Experiment.verify_config`: when source
sampling is disabled, force the `source` operator weight to 0, then re-normalize
the whole operator weight table by its sum. -/
def verify_config_operators (sample_source : Bool) (ops : OperatorsConfig) :
    OperatorsConfig :=
  let ops1 := if sample_source then ops else { ops with source := 0 }
  let total := ops1.clusters + ops1.source + ops1.weights + ops1.cluster_effect +
    ops1.confounding_effects
  { clusters := ops1.clusters / total
    source := ops1.source / total
    weights := ops1.weights / total
    cluster_effect := ops1.cluster_effect / total
    confounding_effects := ops1.confounding_effects / total }

theorem list_map_div_sum (l : List (String × ℚ)) (t : ℚ) :
    (l.map (fun op => op.2 / t)).sum = (l.map (fun op => op.2)).sum / t := by
  induction l with
  | nil => simp
  | cons a l ih => simp [List.sum_cons, ih, add_div]

/-- C5: whenever the pre-normalization operator weights have a positive total, the
weights returned by `get_operators` sum to exactly 1 (in both operator-set
variants), and each per-confounder operator carries the confounding-effects
weight split by the factor `1/len(confounders)`. -/
theorem operator_weights_normalized (b : Bool) (cfg : OperatorsConfig)
    (confounders : List String)
    (htotal : 0 < ((build_operators b cfg confounders).map (fun op => op.2)).sum) :
    ((get_operators b cfg confounders).map (fun op => op.2)).sum = 1 ∧
    (b = true → ∀ k ∈ confounders,
      ("gibbs_sample_confounding_effects_" ++ k,
        cfg.confounding_effects * (1 / (confounders.length : ℚ))) ∈
        build_operators b cfg confounders) ∧
    (b = false → ∀ k ∈ confounders,
      ("alter_confounding_effects_" ++ k,
        cfg.confounding_effects * (1 / (confounders.length : ℚ))) ∈
        build_operators b cfg confounders) := by
  refine ⟨?_, ?_, ?_⟩
  · rw [get_operators, normalize_operator_weights]
    rw [List.map_map]
    have : ((build_operators b cfg confounders).map
        ((fun op => op.2) ∘ fun op => (op.1, op.2 / ((build_operators b cfg confounders).map
          (fun op => op.2)).sum))) =
        (build_operators b cfg confounders).map (fun op => op.2 /
          ((build_operators b cfg confounders).map (fun op => op.2)).sum) := by
      rfl
    rw [this, list_map_div_sum, div_self (ne_of_gt htotal)]
  · rintro rfl k hk
    simp only [build_operators, if_true, List.mem_append, List.mem_map]
    exact Or.inr ⟨k, hk, by rw [mul_comm]⟩
  · rintro rfl k hk
    simp only [build_operators, Bool.false_eq_true, if_false, List.mem_append, List.mem_map]
    exact Or.inr ⟨k, hk, rfl⟩

/-- C6: with source sampling disabled, config verification forces the `source`
operator weight to exactly 0 (and it stays exactly 0 after the re-normalization),
and `get_operators` includes no source operator in the returned set, so it can
never be selected. -/
theorem source_disabled_no_source_operator (ops cfg : OperatorsConfig)
    (confounders : List String)
    (htotal : 0 < ops.clusters + 0 + ops.weights + ops.cluster_effect +
      ops.confounding_effects) :
    (verify_config_operators false ops).source = 0 ∧
    (∀ w, ("gibbs_sample_sources", w) ∉ get_operators false cfg confounders) := by
  constructor
  · simp [verify_config_operators]
  · intro w hmem
    rw [get_operators, normalize_operator_weights, List.mem_map] at hmem
    obtain ⟨op, hop, heq⟩ := hmem
    have hname : op.1 = "gibbs_sample_sources" := congrArg Prod.fst heq
    rw [build_operators, if_neg (by decide)] at hop
    simp only [List.mem_append, List.mem_cons, List.not_mem_nil, or_false,
      List.mem_map] at hop
    rcases hop with (h | h | h) | ⟨k, _, hkeq⟩
    · rw [h] at hname
      dsimp only at hname
      exact absurd hname (by decide)
    · rw [h] at hname
      dsimp only at hname
      exact absurd hname (by decide)
    · rw [h] at hname
      dsimp only at hname
      exact absurd hname (by decide)
    · have hstr : ("alter_confounding_effects_" ++ k : String) = "gibbs_sample_sources" := by
        rw [← hname, ← hkeq]
      have hlen := congrArg String.length hstr
      rw [String.length_append] at hlen
      have h1 : ("gibbs_sample_sources" : String).length = 20 := rfl
      have h2 : ("alter_confounding_effects_" : String).length = 26 := rfl
      omega

/-- A fully connected 2-site network, used as a concrete test network. -/
def adjFull2 : Fin 2 → Fin 2 → Bool := fun _ _ => true

/-- Clusters of a previous run's final sample on the 2-site network. -/
def prevClusters2 : List (Finset (Fin 2)) := [{0}]

/-- Weights of a previous run's final sample (1 feature, 2 sources), already
normalized per feature as the `Sample` invariant requires. -/
def prevWeights2 : Fin 1 → Fin 2 → ℚ := fun _ _ => 1/2

/-- A previous run's effect table with one group (1 feature, 2 states). -/
def prevEffect2 : List (Fin 1 → Fin 2 → ℚ) := [fun _ _ => 1/2]

/-- A single confounder group covering both sites. -/
def groups2 : List (Finset (Fin 2)) := [{0, 1}]

/-- Concrete feature data on the 2-site network: all observations missing (NaN),
both states of the single feature applicable. -/
def featureData2 : FeatureData 2 1 2 := ⟨fun _ _ _ => none, fun _ _ => true⟩

/-- Witness for C7: resuming from a concrete one-cluster sample on the 2-site
network reproduces all of its fields. -/
theorem resume_reproduces_previous_sample_witness :
    (prevClusters2.length = 1 ∧ (∀ f, (∑ t, prevWeights2 f t) = 1) ∧
      prevEffect2.length = 1 ∧ prevEffect2.length = groups2.length) ∧
    (generate_initial_clusters adjFull2 1 1 (some prevClusters2) (fun _ _ => 0) =
        .ok prevClusters2 ∧
      generate_initial_weights 1 2 (some prevWeights2) = prevWeights2 ∧
      generate_initial_cluster_effect featureData2 1 (some prevEffect2) prevClusters2 =
        prevEffect2 ∧
      generate_initial_confounding_effect featureData2 groups2 (some prevEffect2) =
        prevEffect2) :=
  ⟨⟨by decide, by intro f; rw [Fin.sum_univ_two]; norm_num [prevWeights2],
    by decide, by decide⟩,
    resume_reproduces_previous_sample adjFull2 1 1 (fun _ _ => 0) featureData2
      prevClusters2 prevWeights2 prevEffect2 groups2 prevEffect2
      (by decide) (by intro f; rw [Fin.sum_univ_two]; norm_num [prevWeights2])
      (by decide) (by decide)⟩

/-- Witness for C9: from-scratch effect initialization on the concrete 2-site
feature data (all observations missing, so the smoothing alone determines the
rows). -/
theorem initial_effects_laplace_smoothed_witness :
    ((∀ i f k q, featureData2.features i f k = some q → 0 ≤ q) ∧
      (∀ f, ∃ k, featureData2.applicable_states f k = true)) ∧
    (∀ e ∈ generate_initial_cluster_effect featureData2 1 none prevClusters2 ++
        generate_initial_confounding_effect featureData2 groups2 none,
      ∀ f, (∑ k, e f k) = 1 ∧
        (∀ k, featureData2.applicable_states f k = true → 0 < e f k) ∧
        (2 ≤ (Finset.univ.filter
            (fun k => featureData2.applicable_states f k = true)).card →
          ∀ k, featureData2.applicable_states f k = true → e f k < 1)) :=
  ⟨⟨fun _ _ _ _ hq => Option.noConfusion hq, by decide⟩,
    initial_effects_laplace_smoothed featureData2 1 prevClusters2 groups2
      (fun _ _ _ _ hq => Option.noConfusion hq) (by decide)⟩

/-- Modelled from the spec: `get_max_size_list` from `sbayes.util` (not under src/):
"a staged schedule between the initial seed size and 1.5× the nominal max size
(chains partitioned into groups with shared schedule values)" — `k_groups` evenly
spaced stage values from `start` towards `stop`, each group of `n_total / k_groups`
chains sharing one value, the remaining chains getting the final value `stop`. -/
def get_max_size_list (start stop n_total k_groups : ℕ) : List ℕ :=
  let n_per_group := n_total / k_groups
  let sizes := (List.range k_groups).map (fun i => start + (stop - start) * i / k_groups)
  let base := (sizes.map (fun v => List.replicate n_per_group v)).join
  base ++ List.replicate (n_total - base.length) stop

/-- The per-chain `max_size` schedule set up by `ClusterMCMCWarmup.__init__`:
`get_max_size_list(start=(initial_size + max_size) // 2, end=1.5 * max_size,
n_total=n_chains, k_groups=4)`. -/
def warmup_max_size (initial_size max_size n_chains : ℕ) : List ℕ :=
  get_max_size_list ((initial_size + max_size) / 2) (3 * max_size / 2) n_chains 4

/-- The per-chain `p_grow_connected` drawn by `ClusterMCMCWarmup.__init__`:
`random.choices(population=[0.95, p_grow_connected], k=n_chains)`, the random
draws being driven by `oracle`. -/
def warmup_p_grow_connected (p_grow_connected : ℚ) (n_chains : ℕ) (oracle : ℕ → ℕ) :
    List ℚ :=
  (List.range n_chains).map (fun i =>
    [(19 : ℚ)/20, p_grow_connected].get ⟨oracle i % 2, Nat.mod_lt _ (by norm_num)⟩)

theorem join_replicate_length (l : List ℕ) (c : ℕ) :
    ((l.map (fun v => List.replicate c v)).join).length = l.length * c := by
  induction l with
  | nil => simp
  | cons a l ih => simp [ih, Nat.succ_mul, Nat.add_comm]

/-- C8: the warmup scheduler assigns every one of the `n_chains` chains a
`max_size` from a staged schedule whose values all lie between the initial seed
size and `1.5 * max_size` (integer arithmetic as in the code), the values being
shared among at most 5 groups (4 stages plus the padding group), and every
chain's `p_grow_connected` comes from the two-element population
`[0.95, p_grow_connected]`. -/
theorem warmup_schedule_spec (initial_size max_size n_chains : ℕ) (p : ℚ)
    (oracle : ℕ → ℕ) (h : initial_size ≤ max_size) :
    (warmup_max_size initial_size max_size n_chains).length = n_chains ∧
    (∀ m ∈ warmup_max_size initial_size max_size n_chains,
      initial_size ≤ m ∧ m ≤ 3 * max_size / 2) ∧
    (∀ m ∈ warmup_max_size initial_size max_size n_chains,
      m ∈ ((List.range 4).map (fun i => (initial_size + max_size) / 2 +
        (3 * max_size / 2 - (initial_size + max_size) / 2) * i / 4)) ++
          [3 * max_size / 2]) ∧
    (warmup_p_grow_connected p n_chains oracle).length = n_chains ∧
    (∀ q ∈ warmup_p_grow_connected p n_chains oracle, q = 19/20 ∨ q = p) := by
  have hbase_len : (((List.range 4).map (fun i => (initial_size + max_size) / 2 +
      (3 * max_size / 2 - (initial_size + max_size) / 2) * i / 4)).map
        (fun v => List.replicate (n_chains / 4) v)).join.length = 4 * (n_chains / 4) := by
    rw [join_replicate_length, List.length_map, List.length_range, Nat.mul_comm]
  have hmem_shape : ∀ m ∈ warmup_max_size initial_size max_size n_chains,
      m ∈ ((List.range 4).map (fun i => (initial_size + max_size) / 2 +
        (3 * max_size / 2 - (initial_size + max_size) / 2) * i / 4)) ∨
        m = 3 * max_size / 2 := by
    intro m hm
    rw [warmup_max_size, get_max_size_list] at hm
    rcases List.mem_append.mp hm with hm | hm
    · left
      rw [List.mem_join] at hm
      obtain ⟨lsub, hlsub, hmem⟩ := hm
      rw [List.mem_map] at hlsub
      obtain ⟨v, hv, hrepl⟩ := hlsub
      rw [← hrepl] at hmem
      rw [List.eq_of_mem_replicate hmem]
      exact hv
    · right
      exact List.eq_of_mem_replicate hm
  refine ⟨?_, ?_, ?_, ?_, ?_⟩
  · rw [warmup_max_size, get_max_size_list]
    rw [List.length_append, List.length_replicate, hbase_len]
    have : 4 * (n_chains / 4) ≤ n_chains := by omega
    omega
  · intro m hm
    rcases hmem_shape m hm with hv | rfl
    · rw [List.mem_map] at hv
      obtain ⟨i, hi, rfl⟩ := hv
      rw [List.mem_range] at hi
      have hstart : initial_size ≤ (initial_size + max_size) / 2 := by omega
      have hss : (initial_size + max_size) / 2 ≤ 3 * max_size / 2 := by omega
      constructor
      · exact le_trans hstart (Nat.le_add_right _ _)
      · have h34 : (3 * max_size / 2 - (initial_size + max_size) / 2) * i / 4 ≤
            3 * max_size / 2 - (initial_size + max_size) / 2 := by
          calc (3 * max_size / 2 - (initial_size + max_size) / 2) * i / 4
              ≤ (3 * max_size / 2 - (initial_size + max_size) / 2) * 4 / 4 :=
                Nat.div_le_div_right (Nat.mul_le_mul_left _ (by omega))
            _ = 3 * max_size / 2 - (initial_size + max_size) / 2 :=
                Nat.mul_div_cancel _ (by norm_num)
        omega
    · exact ⟨by omega, le_refl _⟩
  · intro m hm
    rcases hmem_shape m hm with hv | rfl
    · exact List.mem_append.mpr (Or.inl hv)
    · exact List.mem_append.mpr (Or.inr (List.mem_singleton.mpr rfl))
  · rw [warmup_p_grow_connected, List.length_map, List.length_range]
  · intro q hq
    rw [warmup_p_grow_connected, List.mem_map] at hq
    obtain ⟨i, _, hqi⟩ := hq
    have h2 : oracle i % 2 = 0 ∨ oracle i % 2 = 1 := by omega
    rcases h2 with h2 | h2
    · left
      rw [← hqi]
      have : ([(19 : ℚ)/20, p].get ⟨oracle i % 2, Nat.mod_lt _ (by norm_num)⟩) =
          [(19 : ℚ)/20, p].get ⟨0, by norm_num⟩ := by
        congr 1
        exact Fin.ext h2
      rw [this]
      rfl
    · right
      rw [← hqi]
      have : ([(19 : ℚ)/20, p].get ⟨oracle i % 2, Nat.mod_lt _ (by norm_num)⟩) =
          [(19 : ℚ)/20, p].get ⟨1, by norm_num⟩ := by
        congr 1
        exact Fin.ext h2
      rw [this]
      rfl

/-- The part of the chain `Sample` read and mutated by
`ClusterMCMC.gibbsish_sample_clusters` (`sbayes.sampling.state.Sample` is not under
src/; its fields are reconstructed from their uses): the cluster membership matrix,
the mixture weights (source 0 is the cluster effect, the remaining `S` sources the
confounders), the per-cluster effect and the per-site applicable-component mask. -/
structure SampleState (n F S K : ℕ) where
  clusters : List (Finset (Fin n))
  weights : Fin F → Fin (S + 1) → ℚ
  cluster_effect : ℕ → Fin F → Fin K → ℚ
  has_components : Fin n → Fin (S + 1) → Bool

/-- The static data the operator reads: the feature tensor, the cached
per-(site, feature, source) component likelihoods (`Modelled from the spec`
§4.1: produced by `likelihood.update_component_likelihoods` of `sbayes.model`,
which is not under src/, and passed in here as data), and the size bounds. -/
structure GibbsishContext (n F S K : ℕ) where
  features : Fin n → Fin F → Fin K → ℚ
  lh : Fin n → Fin F → Fin (S + 1) → ℚ
  min_size : ℕ
  max_size : ℕ

/-- `occupied = np.any(sample.clusters.value, axis=0)`: the sites covered by some
cluster. -/
def occupiedOf {n F S K : ℕ} (s : SampleState n F S K) : Finset (Fin n) :=
  s.clusters.foldr (· ∪ ·) ∅

/-- The randomly chosen cluster to modify
(`i_cluster = np.random.choice(range(n_clusters))`, the draw `r` taken modulo the
cluster count). -/
def clusterOf {n F S K : ℕ} (s : SampleState n F S K) (r : ℕ) : Finset (Fin n) :=
  s.clusters.getD (r % s.clusters.length) ∅

/-- `available = (~occupied) | cluster`. -/
def availableInit {n F S K : ℕ} (s : SampleState n F S K) (r : ℕ) : Finset (Fin n) :=
  (Finset.univ \ occupiedOf s) ∪ clusterOf s r

/-- The candidate pool after the cap-and-subsample step: when the available set
exceeds `max_size` and more than 10 sites are newly available (unoccupied), keep
only the drawn random subset `sub` of the newly available sites
(`available[newly_available] &= random_subset(n_newly_available, 10)`). -/
def availableOf {n F S K : ℕ} (s : SampleState n F S K) (r : ℕ)
    (sub : Finset (Fin n)) (max_size : ℕ) : Finset (Fin n) :=
  if max_size < (availableInit s r).card then
    if 10 < (Finset.univ \ occupiedOf s).card then
      availableInit s r \ ((Finset.univ \ occupiedOf s) \ sub)
    else availableInit s r
  else availableInit s r

/-- Modelled from the spec: `normalize_weights` from `sbayes.model` (not under
src/): per site, the weights of the components that structurally apply are
renormalized to sum to 1 and the others get weight 0. -/
def normalize_weights {F S : ℕ} (w : Fin F → Fin (S + 1) → ℚ)
    (has : Fin (S + 1) → Bool) : Fin F → Fin (S + 1) → ℚ :=
  fun f t => (if has t then w f t else 0) / ∑ u, (if has u then w f u else 0)

/-- `all_lh`: the cached component likelihoods with the cluster-effect column 0
replaced by `zone_lh_z = einsum('ijk,jk->ij', features[available],
cluster_effect[i_cluster])`. -/
def all_lhOf {n F S K : ℕ} (ctx : GibbsishContext n F S K) (s : SampleState n F S K)
    (r : ℕ) : Fin n → Fin F → Fin (S + 1) → ℚ :=
  fun i f t =>
    if t = 0 then ∑ k, ctx.features i f k * s.cluster_effect (r % s.clusters.length) f k
    else ctx.lh i f t

/-- `marginal_lh_with_z`: per site, the product over features of the
weight-mixed likelihood with the cluster component present. -/
def marginal_lh_with {n F S K : ℕ} (ctx : GibbsishContext n F S K)
    (s : SampleState n F S K) (r : ℕ) : Fin n → ℚ :=
  fun i => ∏ f, ∑ t, all_lhOf ctx s r i f t *
    normalize_weights s.weights (s.has_components i) f t

/-- `marginal_lh_without_z`: as `marginal_lh_with`, but with
`has_components[:, 0] = False`. -/
def marginal_lh_without {n F S K : ℕ} (ctx : GibbsishContext n F S K)
    (s : SampleState n F S K) (r : ℕ) : Fin n → ℚ :=
  fun i => ∏ f, ∑ t, all_lhOf ctx s r i f t *
    normalize_weights s.weights
      (fun u => if u = 0 then false else s.has_components i u) f t

/-- `posterior_cluster = marginal_lh_with_z / (marginal_lh_with_z +
marginal_lh_without_z)`: the per-site Gibbs inclusion probability. -/
def posteriorOf {n F S K : ℕ} (ctx : GibbsishContext n F S K)
    (s : SampleState n F S K) (r : ℕ) : Fin n → ℚ :=
  fun i => marginal_lh_with ctx s r i /
    (marginal_lh_with ctx s r i + marginal_lh_without ctx s r i)

/-- `new_cluster`: membership of available sites is redrawn independently
(`np.random.random(n_available) < posterior_cluster`, the uniform draws passed in
as `rnd`), sites outside the candidate pool keep their membership. -/
def newClusterOf {n F S K : ℕ} (ctx : GibbsishContext n F S K)
    (s : SampleState n F S K) (r : ℕ) (sub : Finset (Fin n)) (rnd : Fin n → ℚ) :
    Finset (Fin n) :=
  (clusterOf s r \ availableOf s r sub ctx.max_size) ∪
    (availableOf s r sub ctx.max_size).filter (fun i => rnd i < posteriorOf ctx s r i)

/-- `q_per_site`: the forward proposal probability of the redrawn membership of an
available site. -/
def qPerSite {n F S K : ℕ} (ctx : GibbsishContext n F S K) (s : SampleState n F S K)
    (r : ℕ) (sub : Finset (Fin n)) (rnd : Fin n → ℚ) : Fin n → ℚ :=
  fun i => if i ∈ newClusterOf ctx s r sub rnd then posteriorOf ctx s r i
    else 1 - posteriorOf ctx s r i

/-- `q_back_per_site`: the probability of re-proposing the current membership of an
available site (the backward transition probability). -/
def qBackPerSite {n F S K : ℕ} (ctx : GibbsishContext n F S K)
    (s : SampleState n F S K) (r : ℕ) : Fin n → ℚ :=
  fun i => if i ∈ clusterOf s r then posteriorOf ctx s r i
    else 1 - posteriorOf ctx s r i

/-- A proposal probability handed back to the MCMC driver alongside the proposed
sample.  Modelled from the spec: the sentinel values `Q_REJECT`/`Q_BACK_REJECT` of
the MCMC base class (not under src/) mark a rejected proposal; they are a tagged
variant here, and a value `val q` carries the probability itself where the Python
code carries its logarithm. -/
inductive ProposalProb where
  | reject
  | val (q : ℚ)

/-- The reject sentinel returned on the forward proposal leg. -/
def Q_REJECT : ProposalProb := .reject

/-- The reject sentinel returned on the backward proposal leg. -/
def Q_BACK_REJECT : ProposalProb := .reject

/-- `ClusterMCMC.gibbsish_sample_clusters`: pick a cluster, build the (possibly
subsampled) candidate pool, redraw the membership of the candidate sites from the
per-site Gibbs posterior, and return the new sample with forward and backward
proposal probabilities; reject (returning the input sample with the sentinels on
both legs) when no candidate is available, when the proposed size leaves
`[min_size, max_size]`, or when some backward per-site probability is zero.  The
final source-resampling step (`gibbs_sample_sources`, from
`sbayes.sampling.operators`, not under src/) is passed in as `gss` together with
the current-source backward probability `sourceBackProb`. -/
def gibbsish_sample_clusters {n F S K : ℕ} (ctx : GibbsishContext n F S K)
    (sample_source resample_source : Bool)
    (gss : SampleState n F S K → Finset (Fin n) → SampleState n F S K × ℚ)
    (sourceBackProb : SampleState n F S K → Finset (Fin n) → ℚ)
    (s : SampleState n F S K) (r : ℕ) (sub : Finset (Fin n)) (rnd : Fin n → ℚ) :
    SampleState n F S K × ProposalProb × ProposalProb :=
  if (availableOf s r sub ctx.max_size).card = 0 then (s, Q_REJECT, Q_BACK_REJECT)
  else if ¬ (ctx.min_size ≤ (newClusterOf ctx s r sub rnd).card ∧
      (newClusterOf ctx s r sub rnd).card ≤ ctx.max_size) then
    (s, Q_REJECT, Q_BACK_REJECT)
  else if ∃ i ∈ availableOf s r sub ctx.max_size, qBackPerSite ctx s r i = 0 then
    (s, Q_REJECT, Q_BACK_REJECT)
  else
    let sample_new : SampleState n F S K :=
      { s with clusters :=
          s.clusters.set (r % s.clusters.length) (newClusterOf ctx s r sub rnd) }
    let q := ∏ i ∈ availableOf s r sub ctx.max_size, qPerSite ctx s r sub rnd i
    let q_back := ∏ i ∈ availableOf s r sub ctx.max_size, qBackPerSite ctx s r i
    if sample_source && resample_source then
      ((gss sample_new (availableOf s r sub ctx.max_size)).1,
        .val (q * (gss sample_new (availableOf s r sub ctx.max_size)).2),
        .val (q_back * sourceBackProb s (availableOf s r sub ctx.max_size)))
    else (sample_new, .val q, .val q_back)

theorem subset_foldr_union {n : ℕ} (l : List (Finset (Fin n))) (c : Finset (Fin n))
    (hc : c ∈ l) : c ⊆ l.foldr (· ∪ ·) ∅ := by
  induction l with
  | nil => cases hc
  | cons a l ih =>
    rcases List.mem_cons.mp hc with hc | hc
    · subst hc
      exact Finset.subset_union_left
    · exact (ih hc).trans Finset.subset_union_right

/-- The chosen cluster is covered by the occupied sites. -/
theorem clusterOf_subset_occupied {n F S K : ℕ} (s : SampleState n F S K) (r : ℕ) :
    clusterOf s r ⊆ occupiedOf s := by
  rw [clusterOf, occupiedOf]
  by_cases hne : s.clusters = []
  · rw [hne]
    simp
  · have hlt : r % s.clusters.length < s.clusters.length :=
      Nat.mod_lt _ (List.length_pos.mpr hne)
    have hmem : s.clusters.getD (r % s.clusters.length) ∅ ∈ s.clusters := by
      rw [List.getD_eq_getElem?_getD, List.getElem?_eq_getElem hlt]
      exact List.getElem_mem _
    exact subset_foldr_union _ _ hmem

/-- C3: whenever the redrawn cluster's size falls outside `[min_size, max_size]`,
or some backward per-site transition probability is exactly zero, the operator
returns the original sample unchanged together with the reject sentinels on both
proposal legs — a normal proposal rejection, for any randomness and any
source-resampling configuration. -/
theorem gibbsish_reject_unchanged {n F S K : ℕ} (ctx : GibbsishContext n F S K)
    (sample_source resample_source : Bool)
    (gss : SampleState n F S K → Finset (Fin n) → SampleState n F S K × ℚ)
    (sourceBackProb : SampleState n F S K → Finset (Fin n) → ℚ)
    (s : SampleState n F S K) (r : ℕ) (sub : Finset (Fin n)) (rnd : Fin n → ℚ)
    (hcond : ¬ (ctx.min_size ≤ (newClusterOf ctx s r sub rnd).card ∧
        (newClusterOf ctx s r sub rnd).card ≤ ctx.max_size) ∨
      ∃ i ∈ availableOf s r sub ctx.max_size, qBackPerSite ctx s r i = 0) :
    gibbsish_sample_clusters ctx sample_source resample_source gss sourceBackProb
      s r sub rnd = (s, Q_REJECT, Q_BACK_REJECT) := by
  rw [gibbsish_sample_clusters]
  rcases hcond with hc | hc
  · by_cases h0 : (availableOf s r sub ctx.max_size).card = 0
    · rw [if_pos h0]
    · rw [if_neg h0, if_pos hc]
  · by_cases h0 : (availableOf s r sub ctx.max_size).card = 0
    · rw [if_pos h0]
    · rw [if_neg h0]
      by_cases h1 : ¬ (ctx.min_size ≤ (newClusterOf ctx s r sub rnd).card ∧
          (newClusterOf ctx s r sub rnd).card ≤ ctx.max_size)
      · rw [if_pos h1]
      · rw [if_neg h1, if_pos hc]

/-- C4: whenever the initial candidate pool exceeds the cap `max_size`, the pool
used by the operator is a subset of the unoccupied sites of size at most 10 (the
drawn 10-element random subset when more than 10 sites are unoccupied, all of them
otherwise) together with all sites of the chosen cluster, and the chosen cluster's
sites are never removed by the subsampling. -/
theorem available_subsample_cap {n F S K : ℕ} (s : SampleState n F S K) (r : ℕ)
    (sub : Finset (Fin n)) (max_size : ℕ)
    (hsub : sub ⊆ Finset.univ \ occupiedOf s) (hcard : sub.card = 10)
    (hcap : max_size < (availableInit s r).card) :
    ∃ t ⊆ Finset.univ \ occupiedOf s, t.card ≤ 10 ∧
      availableOf s r sub max_size = t ∪ clusterOf s r ∧
      clusterOf s r ⊆ availableOf s r sub max_size := by
  have hclocc : clusterOf s r ⊆ occupiedOf s := clusterOf_subset_occupied s r
  by_cases h10 : 10 < (Finset.univ \ occupiedOf s).card
  · refine ⟨sub, hsub, le_of_eq hcard, ?_, ?_⟩
    · rw [availableOf, if_pos hcap, if_pos h10, availableInit]
      ext x
      constructor
      · intro hx
        obtain ⟨hav, hnot⟩ := Finset.mem_sdiff.mp hx
        rcases Finset.mem_union.mp hav with hnew | hcl
        · rcases Classical.em (x ∈ sub) with hxs | hxs
          · exact Finset.mem_union_left _ hxs
          · exact absurd (Finset.mem_sdiff.mpr ⟨hnew, hxs⟩) hnot
        · exact Finset.mem_union_right _ hcl
      · intro hx
        rcases Finset.mem_union.mp hx with hxs | hxc
        · refine Finset.mem_sdiff.mpr ⟨Finset.mem_union_left _ (hsub hxs), ?_⟩
          intro h
          exact (Finset.mem_sdiff.mp h).2 hxs
        · refine Finset.mem_sdiff.mpr ⟨Finset.mem_union_right _ hxc, ?_⟩
          intro h
          exact (Finset.mem_sdiff.mp (Finset.mem_sdiff.mp h).1).2 (hclocc hxc)
    · rw [availableOf, if_pos hcap, if_pos h10, availableInit]
      intro x hx
      refine Finset.mem_sdiff.mpr ⟨Finset.mem_union_right _ hx, ?_⟩
      intro h
      exact (Finset.mem_sdiff.mp (Finset.mem_sdiff.mp h).1).2 (hclocc hx)
  · refine ⟨Finset.univ \ occupiedOf s, le_refl _, by omega, ?_, ?_⟩
    · rw [availableOf, if_pos hcap, if_neg h10, availableInit]
    · rw [availableOf, if_pos hcap, if_neg h10, availableInit]
      exact Finset.subset_union_right

/-- A concrete operator weight table with all family weights equal to 1. -/
def cfgOnes : OperatorsConfig := ⟨1, 1, 1, 1, 1⟩

/-- Witness for C5: the source-sampling operator set over two confounders with all
configured weights 1. -/
theorem operator_weights_normalized_witness :
    (0 < ((build_operators true cfgOnes ["a", "b"]).map (fun op => op.2)).sum) ∧
    (((get_operators true cfgOnes ["a", "b"]).map (fun op => op.2)).sum = 1 ∧
      (true = true → ∀ k ∈ ["a", "b"],
        ("gibbs_sample_confounding_effects_" ++ k,
          cfgOnes.confounding_effects * (1 / ((["a", "b"] : List String).length : ℚ))) ∈
          build_operators true cfgOnes ["a", "b"]) ∧
      (true = false → ∀ k ∈ ["a", "b"],
        ("alter_confounding_effects_" ++ k,
          cfgOnes.confounding_effects * (1 / ((["a", "b"] : List String).length : ℚ))) ∈
          build_operators true cfgOnes ["a", "b"])) :=
  ⟨by norm_num [build_operators, cfgOnes],
    operator_weights_normalized true cfgOnes ["a", "b"]
      (by norm_num [build_operators, cfgOnes])⟩

/-- Witness for C6: disabling source sampling on the all-ones weight table with a
single confounder. -/
theorem source_disabled_no_source_operator_witness :
    (0 < cfgOnes.clusters + 0 + cfgOnes.weights + cfgOnes.cluster_effect +
      cfgOnes.confounding_effects) ∧
    ((verify_config_operators false cfgOnes).source = 0 ∧
      (∀ w, ("gibbs_sample_sources", w) ∉ get_operators false cfgOnes ["a"])) :=
  ⟨by norm_num [cfgOnes],
    source_disabled_no_source_operator cfgOnes cfgOnes ["a"] (by norm_num [cfgOnes])⟩

/-- Witness for C8: warmup schedule for 6 chains, initial size 2, nominal max
size 10. -/
theorem warmup_schedule_spec_witness :
    2 ≤ 10 ∧
    ((warmup_max_size 2 10 6).length = 6 ∧
      (∀ m ∈ warmup_max_size 2 10 6, 2 ≤ m ∧ m ≤ 3 * 10 / 2) ∧
      (∀ m ∈ warmup_max_size 2 10 6,
        m ∈ ((List.range 4).map (fun i => (2 + 10) / 2 +
          (3 * 10 / 2 - (2 + 10) / 2) * i / 4)) ++ [3 * 10 / 2]) ∧
      (warmup_p_grow_connected (1/2) 6 (fun i => i)).length = 6 ∧
      (∀ q ∈ warmup_p_grow_connected (1/2) 6 (fun i => i), q = 19/20 ∨ q = 1/2)) :=
  ⟨by decide, warmup_schedule_spec 2 10 6 (1/2) (fun i => i) (by decide)⟩

/-- A concrete 2-site context whose size bounds `[3, 3]` cannot be met by any
cluster (there are only 2 sites), forcing the size rejection. -/
def ctxC : GibbsishContext 2 1 0 1 := ⟨fun _ _ _ => 1, fun _ _ _ => 1, 3, 3⟩

/-- A concrete 2-site sample with one cluster `{0}`. -/
def sC : SampleState 2 1 0 1 := ⟨[{0}], fun _ _ => 1, fun _ _ _ => 1, fun _ _ => true⟩

/-- A trivial stand-in for the source-resampling step (unused on reject paths). -/
def gssC : SampleState 2 1 0 1 → Finset (Fin 2) → SampleState 2 1 0 1 × ℚ :=
  fun s2 _ => (s2, 1)

/-- A trivial stand-in for the backward source probability (unused on reject
paths). -/
def sbpC : SampleState 2 1 0 1 → Finset (Fin 2) → ℚ := fun _ _ => 1

/-- On the 2-site sample the proposed cluster can never reach the minimum size 3. -/
theorem sC_size_reject :
    ¬ (ctxC.min_size ≤ (newClusterOf ctxC sC 0 ∅ (fun _ => 1/2)).card ∧
      (newClusterOf ctxC sC 0 ∅ (fun _ => 1/2)).card ≤ ctxC.max_size) := by
  intro h
  have hle : (newClusterOf ctxC sC 0 ∅ (fun _ => 1/2)).card ≤ 2 := by
    simpa using Finset.card_le_univ (newClusterOf ctxC sC 0 ∅ (fun _ => 1/2))
  have h3 : ctxC.min_size = 3 := rfl
  rw [h3] at h
  omega

/-- Witness for C3: the 2-site sample with unreachable size bounds is rejected
with the sentinels on both legs. -/
theorem gibbsish_reject_unchanged_witness :
    (¬ (ctxC.min_size ≤ (newClusterOf ctxC sC 0 ∅ (fun _ => 1/2)).card ∧
        (newClusterOf ctxC sC 0 ∅ (fun _ => 1/2)).card ≤ ctxC.max_size) ∨
      ∃ i ∈ availableOf sC 0 ∅ ctxC.max_size, qBackPerSite ctxC sC 0 i = 0) ∧
    gibbsish_sample_clusters ctxC false false gssC sbpC sC 0 ∅ (fun _ => 1/2) =
      (sC, Q_REJECT, Q_BACK_REJECT) :=
  ⟨Or.inl sC_size_reject,
    gibbsish_reject_unchanged ctxC false false gssC sbpC sC 0 ∅ (fun _ => 1/2)
      (Or.inl sC_size_reject)⟩

/-- A concrete 12-site sample with one cluster `{0}` (so 11 unoccupied sites). -/
def s12 : SampleState 12 1 0 1 :=
  ⟨[{0}], fun _ _ => 1, fun _ _ _ => 1, fun _ _ => true⟩

/-- A concrete 10-element random subset of the unoccupied sites of `s12`. -/
def sub12 : Finset (Fin 12) := {1, 2, 3, 4, 5, 6, 7, 8, 9, 10}

/-- Witness for C4: the 12-site sample with cap 2 ( < 12 available sites) and the
concrete 10-element subsample. -/
theorem available_subsample_cap_witness :
    (sub12 ⊆ Finset.univ \ occupiedOf s12 ∧ sub12.card = 10 ∧
      2 < (availableInit s12 0).card) ∧
    (∃ t ⊆ Finset.univ \ occupiedOf s12, t.card ≤ 10 ∧
      availableOf s12 0 sub12 2 = t ∪ clusterOf s12 0 ∧
      clusterOf s12 0 ⊆ availableOf s12 0 sub12 2) :=
  ⟨⟨by decide, by decide, by decide⟩,
    available_subsample_cap s12 0 sub12 2 (by decide) (by decide) (by decide)⟩

end SBayes
